import Mathlib

/-!
Verification of the analytical core of the deadreckoning petition tracker.

The definitions below are a shallow embedding, over exact rational
arithmetic, of the probability model, qualification-distribution engine,
rejection-rate computation, weekly bucketing and bloom-index builder found
in scripts/process.py and scripts/replay.py.  Python floats are modelled as
rationals, Python ints as integers, and code points that can raise
(division by a zero divisor, out-of-range list writes) are modelled as
Option-valued, with none standing for a raised exception.
-/

set_option maxHeartbeats 1000000

/-- Model of Python round(x, 4) (round to four decimal places; Python rounds
half to even while this model rounds half up — no value arising in this
development lands exactly on a tie, where the two differ). -/
def rnd4 (x : ℚ) : ℚ := (round (x * 10000) : ℤ) / 10000

/-- Model of Python round(x, 2). -/
def rnd2 (x : ℚ) : ℚ := (round (x * 100) : ℤ) / 100

/-- scripts/process.py, compute_district_prob lines 195-222: the weighted
combination taken once the projection clears 90% of threshold — base score,
trend multiplier, rejection penalty, squeeze bands, velocity bonus and the
final clamp to [0, 0.99]. -/
def growth_weighted_score (verified threshold : ℤ) (trend : String)
    (final_week_sigs : ℤ) (proj_pct rejection_rate : ℚ) : ℚ :=
  let base_score : ℚ := (verified : ℚ) / (threshold : ℚ)
  let trend_mult : ℚ :=
    if trend = "ACCEL" then 108/100
    else if trend = "STABLE" then 1
    else if trend = "DECEL" then 90/100
    else 1
  let rejection_penalty := rejection_rate * (1/2)
  let raw0 := 45/100 * base_score + 35/100 * proj_pct
      + 20/100 * (base_score * trend_mult) - rejection_penalty
  let raw1 :=
    if base_score < 50/100 then raw0 * (60/100)
    else if base_score < 75/100 then raw0 * (85/100)
    else if 95/100 ≤ base_score then max raw0 (85/100)
    else raw0
  let raw2 :=
    if 500 < final_week_sigs then raw1 + 3/100
    else if 200 < final_week_sigs then raw1 + 1/100
    else raw1
  max 0 (min (99/100) raw2)

/-- scripts/process.py, compute_district_prob (lines 167-222): growth-regime
probability that a district meets its threshold.  The only division that the
source does not guard with a `threshold > 0` test is `verified / threshold`
(line 196); it is rendered here with an explicit zero test returning none
(a raised ZeroDivisionError). -/
def compute_district_prob (verified threshold : ℤ) (trend : String)
    (final_week_sigs : ℤ) (projected_adj rejection_rate : ℚ) : Option ℚ :=
  if threshold ≤ verified then some 1
  else
    let proj_pct : ℚ := if 0 < threshold then projected_adj / (threshold : ℚ) else 0
    if proj_pct < 65/100 then some (rnd4 (proj_pct * (31/1000)))
    else if proj_pct < 80/100 then some (rnd4 (2/100 + (proj_pct - 65/100) * (40/100)))
    else if proj_pct < 90/100 then some (rnd4 (8/100 + (proj_pct - 80/100) * 1))
    else if (threshold : ℚ) = 0 then none
    else some (growth_weighted_score verified threshold trend final_week_sigs
        proj_pct rejection_rate)

/-- scripts/process.py, bayesian_removal_rate (lines 225-242) with the default
clerk window of 22 days used at its only call site: blend of the observed
post-deadline removal rate with the 1.65% empirical prior. -/
def bayesian_removal_rate (observed_rate : ℚ) (days_post_deadline : ℤ) : ℚ :=
  let credibility := min 1 ((days_post_deadline : ℚ) / 22)
  credibility * observed_rate + (1 - credibility) * (165/10000)

/-- scripts/process.py, lines 307-321: the below-threshold continuation of the
survival model — trajectory bonus, heavy-scrutiny discount, clamp and round
applied to the gap-lookup base probability. -/
def survival_below_tail (effective_rate pre_deadline_slope : ℚ)
    (days_post_deadline : ℤ) (base_p : ℚ) : ℚ :=
  let base_p1 :=
    if 0 < pre_deadline_slope ∧ days_post_deadline ≤ 10 then
      base_p * (1 + min (1/2) (pre_deadline_slope / 50) * (1 - (days_post_deadline : ℚ) / 10))
    else base_p
  let base_p2 :=
    if 3/100 < effective_rate then
      base_p1 * max (1/2) (1 - (effective_rate - 3/100) * 10)
    else base_p1
  rnd4 (max 0 (min (99/100) base_p2))

/-- scripts/process.py, compute_district_prob_survival (lines 245-321):
post-submission-deadline survival model.  The division producing `buffer`
(line 276) is not guarded in the source; it is rendered with an explicit zero
test returning none (a raised ZeroDivisionError).  The `current_pct` division
(line 290) is guarded in the source. -/
def compute_district_prob_survival (verified : ℚ) (threshold peak_verified : ℤ)
    (post_deadline_removal_rate observed_removal_rate : ℚ)
    (days_remaining days_post_deadline : ℤ) (pre_deadline_slope : ℚ) : Option ℚ :=
  let effective_rate := bayesian_removal_rate post_deadline_removal_rate days_post_deadline
  if (threshold : ℚ) ≤ verified then
    if (threshold : ℚ) = 0 then none
    else
      let buffer := (verified - (threshold : ℚ)) / (threshold : ℚ)
      if 10/100 ≤ buffer then
        let projected_remaining := verified * (1 - effective_rate)
        if (threshold : ℚ) ≤ projected_remaining then some 1
        else some (max (92/100) (1 - min (effective_rate * 2) (10/100)))
      else some (max (90/100) (1 - min (effective_rate * 3) (15/100)))
  else
    let current_pct : ℚ := if 0 < threshold then verified / (threshold : ℚ) else 0
    let gap_pct := 1 - current_pct
    if gap_pct ≤ 2/100 then
      some (survival_below_tail effective_rate pre_deadline_slope days_post_deadline (18/100))
    else if gap_pct ≤ 5/100 then
      some (survival_below_tail effective_rate pre_deadline_slope days_post_deadline (10/100))
    else if gap_pct ≤ 10/100 then
      some (survival_below_tail effective_rate pre_deadline_slope days_post_deadline (5/100))
    else if gap_pct ≤ 15/100 then
      some (survival_below_tail effective_rate pre_deadline_slope days_post_deadline (2/100))
    else if gap_pct ≤ 25/100 then
      some (survival_below_tail effective_rate pre_deadline_slope days_post_deadline (5/1000))
    else some 0

/-- scripts/process.py, line 686: lag weight decaying from 1 on the deadline
day to 0 after LG_LAG_DAYS = 14 days. -/
def lag_weight (days_elapsed : ℕ) : ℚ := max 0 (1 - (days_elapsed : ℚ) / 14)

/-- scripts/process.py, line 826: survival-mode blend of the growth-model and
survival-model probabilities. -/
def blend_prob (lw growth_prob survival_prob : ℚ) : ℚ :=
  lw * growth_prob + (1 - lw) * survival_prob

/-- Checked list write: Python list assignment `l[i] = v` raises IndexError
when `i` is out of range, modelled as none. -/
def setChecked (l : List ℚ) (i : ℕ) (v : ℚ) : Option (List ℚ) :=
  if i < l.length then some (l.set i v) else none

/-- scripts/process.py, compute_distribution inner loop (lines 330-335): one
pass over the indices `k` of `dp`, accumulating into `new_dp`.  Entries with
`dp[k] == 0` are skipped; otherwise `new_dp[k+1] += dp[k]*p` and
`new_dp[k] += dp[k]*(1-p)` are performed as checked writes. -/
def distUpdate (dp : List ℚ) (p : ℚ) : List ℕ → List ℚ → Option (List ℚ)
  | [], acc => some acc
  | k :: ks, acc =>
    if dp.getD k 0 = 0 then distUpdate dp p ks acc
    else
      match setChecked acc (k + 1) (acc.getD (k + 1) 0 + dp.getD k 0 * p) with
      | none => none
      | some acc1 =>
        match setChecked acc1 k (acc1.getD k 0 + dp.getD k 0 * (1 - p)) with
        | none => none
        | some acc2 => distUpdate dp p ks acc2

/-- scripts/process.py, compute_distribution outer loop (lines 329-336):
for each district probability `p`, rebuild `dp` from a fresh zero array. -/
def distLoop (n : ℕ) : List ℚ → List ℚ → Option (List ℚ)
  | [], dp => some dp
  | p :: ps, dp =>
    match distUpdate dp p (List.range (n + 1)) (List.replicate (n + 1) 0) with
    | none => none
    | some nd => distLoop n ps nd

/-- scripts/process.py, compute_distribution (lines 324-337): exact dynamic
program for `dp[k] = P(exactly k districts meet threshold)`. -/
def compute_distribution (probs : List ℚ) : Option (List ℚ) :=
  distLoop probs.length probs ((List.replicate (probs.length + 1) 0).set 0 1)

/-- scripts/process.py, p_qualify (lines 340-341): `sum(dp[26:])`. -/
def p_qualify (dp : List ℚ) : ℚ := (dp.drop 26).sum

/-- scripts/process.py, expected_districts (lines 344-345). -/
def expected_districts (probs : List ℚ) : ℚ := probs.sum

/-- scripts/replay.py, compute_rejection_rate per-district body (lines
184-194): total inter-snapshot declines divided by the peak count, rounded to
four decimals; 0.0 for fewer than two observations or a zero peak.  A series
is a list of (date, count) pairs; only the counts are used. -/
def compute_rejection_rate (vals : List (ℕ × ℕ)) : ℚ :=
  if vals.length < 2 then 0
  else
    let counts := vals.map Prod.snd
    let peak := counts.foldr max 0
    let total_removals : ℕ := (List.zipWith (fun a b => a - b) counts counts.tail).sum
    if 0 < peak then rnd4 ((total_removals : ℚ) / (peak : ℚ)) else 0

/-- scripts/process.py, build_weekly_buckets (lines 509-522).  Entry
timestamps are modelled as rational day numbers; the day difference
`(a - b).days` of two timestamps is `⌊a - b⌋`.  Python's `int()` truncates
toward zero; on the nonnegative quotients arising here that is the floor,
rendered `Int.toNat ∘ Int.floor`. -/
def build_weekly_buckets (dates : List ℚ) (n_buckets : ℕ) : List ℕ :=
  if dates = [] then List.replicate n_buckets 0
  else
    let sorted_dates := dates.mergeSort (· ≤ ·)
    let earliest := sorted_dates.headD 0
    let latest := sorted_dates.getLastD 0
    let span_days : ℤ := max ⌊latest - earliest⌋ 1
    let bucket_size_days : ℚ := (span_days : ℚ) / (n_buckets : ℚ)
    sorted_dates.foldl
      (fun buckets dt =>
        let offset : ℤ := ⌊dt - earliest⌋
        let idx := min (Int.toNat ⌊(offset : ℚ) / bucket_size_days⌋) (n_buckets - 1)
        buckets.set idx (buckets.getD idx 0 + 1))
      (List.replicate n_buckets 0)

/-- Big-endian byte concatenation, modelling Python `int.from_bytes(bs, 'big')`
for the byte slices taken from a digest. -/
def bytesBE (bs : List ℕ) : ℕ := bs.foldl (fun acc b => acc * 256 + b) 0

/-- scripts/process.py, bloom_hash_positions (lines 84-94): double hashing
`(h1 + i*h2) mod m` with `h2` forced odd.  The SHA-256 digest comes from the
standard library, an external collaborator, so it is passed in as a function
from keys to byte lists. -/
def bloom_hash_positions (digest : String → List ℕ) (key : String) (m k : ℕ) :
    List ℕ :=
  let d := digest key
  let h1 := bytesBE (d.take 8)
  let h2 := bytesBE ((d.drop 8).take 8) ||| 1
  (List.range k).map (fun i => (h1 + i * h2) % m)

/-- scripts/process.py, line 108: set the bit at `pos` in a byte array,
`bits[pos >> 3] |= 1 << (pos & 7)`. -/
def setBloomBit (bits : List ℕ) (pos : ℕ) : List ℕ :=
  bits.set (pos >>> 3) (bits.getD (pos >>> 3) 0 ||| (1 <<< (pos &&& 7)))

/-- Read the bit at `pos` from the packed byte array (the membership test the
JS consumer performs on the published filter). -/
def bloomTestBit (bits : List ℕ) (pos : ℕ) : Bool :=
  (bits.getD (pos >>> 3) 0).testBit (pos &&& 7)

/-- scripts/process.py, build_bloom_filter (lines 97-113): insert every key's
bit positions into a `m/8`-byte array.  The base64 serialisation of the final
array is an output-encoding step outside the model. -/
def build_bloom_filter (digest : String → List ℕ) (keys : List String)
    (m k : ℕ) : List ℕ :=
  keys.foldl
    (fun bits key => (bloom_hash_positions digest key m k).foldl setBloomBit bits)
    (List.replicate (m / 8) 0)

/-- scripts/process.py, per-district output record: the fields of the
data.json district entry involved in delta tracking (lines 880-900). -/
structure DRec where
  verified : ℤ
  prevVerified : ℤ
  delta : ℤ
  prob : ℚ
  prevProb : ℚ
  probDelta : ℚ
deriving Repr, DecidableEq

/-- scripts/process.py, lines 641-648 and 859-864 plus the output rounding of
lines 893-896: build one district record from the previous run's record (none
when the district was absent from the previous output). -/
def mkDistrictRec (isRep : Bool) (prevRec : Option DRec) (verified : ℤ)
    (prob : ℚ) : DRec :=
  let prev_verified :=
    if isRep then (match prevRec with | some r => r.prevVerified | none => verified)
    else (match prevRec with | some r => r.verified | none => verified)
  let delta :=
    if isRep then (match prevRec with | some r => r.delta | none => 0)
    else verified - prev_verified
  let prev_prob :=
    if isRep then (match prevRec with | some r => r.prevProb | none => prob)
    else (match prevRec with | some r => r.prob | none => prob)
  let prob_delta :=
    if isRep then (match prevRec with | some r => r.probDelta | none => 0)
    else rnd4 (prob - prev_prob)
  { verified := verified, prevVerified := prev_verified, delta := delta,
    prob := rnd4 prob, prevProb := rnd4 prev_prob, probDelta := rnd4 prob_delta }

/-- The district loop of scripts/process.py main (lines 636-900) restricted to
the delta-tracking fields: districts are processed in a fixed order, each
looked up against the same position of the previous output. -/
def buildDistricts (isRep : Bool) : List DRec → List (ℤ × ℚ) → List DRec
  | _, [] => []
  | prevs, (v, p) :: rest =>
    mkDistrictRec isRep prevs.head? v p :: buildDistricts isRep prevs.tail rest

/-- scripts/process.py, the parts of the data.json output involved in the
reprocessing guard (meta.totalVerified, districts, overall, snapshot deltas). -/
structure RunOut where
  totalVerified : ℤ
  districts : List DRec
  pQualify : ℚ
  expectedDistricts : ℚ
  overallProbDelta : ℚ
  expectedDistrictsDelta : ℚ
deriving Repr, DecidableEq

/-- scripts/process.py main, delta-tracking slice (lines 574-1161): given the
parsed per-district verified counts, the per-district probabilities (functions
of the current input and history only, not of the previous output) and the
previous run's output, produce the next output's delta-tracking fields.  The
reprocessing guard of lines 594-600 compares the previous recorded
totalVerified with the current total. -/
def runPipeline (verifiedCounts : List ℤ) (probs : List ℚ)
    (prevOut : Option RunOut) : RunOut :=
  let total := verifiedCounts.sum
  let isRep := match prevOut with
    | none => false
    | some prev => decide (prev.totalVerified = total)
  let prevDistricts := match prevOut with
    | none => []
    | some prev => prev.districts
  let districts := buildDistricts isRep prevDistricts (verifiedCounts.zip probs)
  let dp := (compute_distribution probs).getD []
  let p_qual_raw := p_qualify dp
  let p_qual := max 0 (p_qual_raw - 3/100 * p_qual_raw)
  let exp_districts := expected_districts probs
  let prev_p_qualify := match prevOut with | none => 0 | some prev => prev.pQualify
  let prev_expected := match prevOut with | none => 0 | some prev => prev.expectedDistricts
  let overall_prob_delta :=
    if isRep then (match prevOut with | none => 0 | some prev => prev.overallProbDelta)
    else rnd4 (p_qual - prev_p_qualify)
  let expected_districts_delta :=
    if isRep then (match prevOut with | none => 0 | some prev => prev.expectedDistrictsDelta)
    else rnd2 (exp_districts - prev_expected)
  { totalVerified := total, districts := districts,
    pQualify := rnd4 p_qual, expectedDistricts := rnd2 exp_districts,
    overallProbDelta := overall_prob_delta,
    expectedDistrictsDelta := expected_districts_delta }

/-- Specification-level convolution step: the effect of one district with
success probability `p` on the counting distribution, viewed as a function on
all of ℕ. -/
def berStep (f : ℕ → ℚ) (p : ℚ) : ℕ → ℚ :=
  fun k => f k * (1 - p) + (if k = 0 then 0 else f (k - 1) * p)

/-- Point mass at zero districts. -/
def dirac (k : ℕ) : ℚ := if k = 0 then 1 else 0

/-- Specification-level counting distribution of a list of independent
Bernoulli trials, folded in the same order the code processes districts. -/
def berPMF (probs : List ℚ) : ℕ → ℚ := probs.foldl berStep dirac

/-- Tail sum of `f` over the index window `[t, M)`. -/
def Stail (M t : ℕ) (f : ℕ → ℚ) : ℚ := Finset.sum (Finset.Ico t M) f

theorem getD_set_self {α : Type} (l : List α) (i : ℕ) (v d : α)
    (h : i < l.length) : (l.set i v).getD i d = v := by
  induction l generalizing i with
  | nil => simp at h
  | cons a t ih =>
    cases i with
    | zero => simp
    | succ n => simpa using ih n (by simpa using h)

theorem getD_set_ne {α : Type} (l : List α) {i j : ℕ} (v d : α)
    (h : i ≠ j) : (l.set i v).getD j d = l.getD j d := by
  induction l generalizing i j with
  | nil => simp
  | cons a t ih =>
    cases i with
    | zero => cases j with
      | zero => exact absurd rfl h
      | succ m => simp
    | succ n => cases j with
      | zero => simp
      | succ m => simpa using ih (fun hnm => h (by omega))

theorem sum_set_getD_add {M : Type} [AddCommMonoid M] (l : List M) (i : ℕ)
    (d v : M) (h : i < l.length) :
    (l.set i (l.getD i d + v)).sum = l.sum + v := by
  induction l generalizing i with
  | nil => simp at h
  | cons a t ih =>
    cases i with
    | zero => simp [add_comm, add_assoc, add_left_comm]
    | succ n =>
      have := ih n (by simpa using h)
      simp only [List.getD_cons_succ, List.set_cons_succ, List.sum_cons, this, add_assoc]

theorem round_le_round_of_le {x y : ℚ} (h : x ≤ y) : round x ≤ round y := by
  rw [round_eq, round_eq]
  exact Int.floor_mono (by linarith)

theorem round_le_int_of_lt {x : ℚ} {n : ℤ} (h : x < (n : ℚ) + 1/2) :
    round x ≤ n := by
  rw [round_eq]
  have hlt : ⌊x + 1/2⌋ < n + 1 := by
    rw [Int.floor_lt]
    push_cast
    linarith
  omega

theorem rnd4_le_of_lt {x : ℚ} {n : ℤ} (h : x * 10000 < (n : ℚ) + 1/2) :
    rnd4 x ≤ (n : ℚ) / 10000 := by
  unfold rnd4
  have h1 : ((round (x * 10000) : ℤ) : ℚ) ≤ (n : ℚ) :=
    Int.cast_le.mpr (round_le_int_of_lt h)
  exact (div_le_div_iff_of_pos_right (by norm_num)).mpr h1

theorem rnd4_nonneg {x : ℚ} (h : 0 ≤ x) : 0 ≤ rnd4 x := by
  unfold rnd4
  have h0 : (0 : ℤ) ≤ round (x * 10000) := by
    have := round_le_round_of_le (by nlinarith : (0 : ℚ) ≤ x * 10000)
    simpa using this
  have : (0 : ℚ) ≤ ((round (x * 10000) : ℤ) : ℚ) := Int.cast_nonneg.mpr h0
  positivity

theorem rnd4_lt_one {x : ℚ} (h : x ≤ 99/100) : rnd4 x < 1 := by
  have h1 : rnd4 x ≤ ((9900 : ℤ) : ℚ) / 10000 :=
    rnd4_le_of_lt (by push_cast; linarith)
  calc rnd4 x ≤ ((9900 : ℤ) : ℚ) / 10000 := h1
    _ < 1 := by norm_num

theorem rnd4_idem (x : ℚ) : rnd4 (rnd4 x) = rnd4 x := by
  unfold rnd4
  rw [div_mul_cancel₀ _ (by norm_num : (10000 : ℚ) ≠ 0), round_intCast]

theorem survival_below_tail_lt_one (er sl : ℚ) (dpd : ℤ) (b : ℚ) :
    survival_below_tail er sl dpd b < 1 := by
  unfold survival_below_tail
  exact rnd4_lt_one (max_le (by norm_num) (min_le_left _ _))

theorem growth_weighted_score_mem (v t : ℤ) (trend : String) (fws : ℤ)
    (pp rr : ℚ) : 0 ≤ growth_weighted_score v t trend fws pp rr ∧
      growth_weighted_score v t trend fws pp rr ≤ 99/100 := by
  unfold growth_weighted_score
  exact ⟨le_max_left _ _, max_le (by norm_num) (min_le_left _ _)⟩

theorem growth_prob_lt_one {v t : ℤ} {trend : String} {fws : ℤ}
    {padj rr r : ℚ} (hvt : ¬ t ≤ v)
    (h : compute_district_prob v t trend fws padj rr = some r) : r < 1 := by
  simp only [compute_district_prob, if_neg hvt] at h
  set pp : ℚ := if 0 < t then padj / (t : ℚ) else 0 with hppdef
  split_ifs at h with h1 h2 h3 h4
  · rw [Option.some_inj] at h
    subst h
    exact rnd4_lt_one (by nlinarith)
  · rw [Option.some_inj] at h
    subst h
    exact rnd4_lt_one (by nlinarith)
  · rw [Option.some_inj] at h
    subst h
    exact rnd4_lt_one (by nlinarith)
  · rw [Option.some_inj] at h
    subst h
    have := (growth_weighted_score_mem v t trend fws pp rr).2
    linarith

theorem growth_prob_total (v t : ℤ) (trend : String) (fws : ℤ)
    (padj rr : ℚ) :
    (compute_district_prob v t trend fws padj rr).isSome = true := by
  by_cases h0 : t ≤ v
  · simp [compute_district_prob, h0]
  · by_cases ht : 0 < t
    · simp only [compute_district_prob, if_neg h0, if_pos ht]
      split_ifs with h1 h2 h3 h4
      · rfl
      · rfl
      · rfl
      · -- the branch `(t : ℚ) = 0` is unreachable here since 0 < t
        exact absurd h4 (by exact_mod_cast ht.ne')
      · rfl
    · -- a zero (or negative) threshold forces proj_pct = 0 < 0.65, so the
      -- unguarded base-score division is never reached
      simp only [compute_district_prob, if_neg h0, if_neg ht]
      rw [if_pos (by norm_num : (0 : ℚ) < 65/100)]
      rfl

theorem survival_prob_lt_one_below {vv : ℚ} {t pk : ℤ} {pr orr : ℚ}
    {dr dp : ℤ} {sl r : ℚ} (hvt : vv < (t : ℚ))
    (h : compute_district_prob_survival vv t pk pr orr dr dp sl = some r) :
    r < 1 := by
  simp only [compute_district_prob_survival, if_neg (not_le.mpr hvt)] at h
  split_ifs at h <;> rw [Option.some_inj] at h <;> subst h <;>
    first
      | exact survival_below_tail_lt_one _ _ _ _
      | norm_num

theorem survival_prob_ge_point_nine_above {vv : ℚ} {t pk : ℤ} {pr orr : ℚ}
    {dr dp : ℤ} {sl r : ℚ} (hvt : (t : ℚ) ≤ vv)
    (h : compute_district_prob_survival vv t pk pr orr dr dp sl = some r) :
    90/100 ≤ r := by
  simp only [compute_district_prob_survival, if_pos hvt] at h
  split_ifs at h <;> rw [Option.some_inj] at h <;> subst h
  · norm_num
  · exact le_trans (by norm_num) (le_max_left _ _)
  · exact le_max_left _ _

theorem survival_prob_total (vv : ℚ) (t pk : ℤ) (pr orr : ℚ) (dr dp : ℤ)
    (sl : ℚ) (ht : t ≠ 0) :
    (compute_district_prob_survival vv t pk pr orr dr dp sl).isSome = true := by
  have ht' : (t : ℚ) ≠ 0 := Int.cast_ne_zero.mpr ht
  simp only [compute_district_prob_survival]
  split_ifs <;> rfl

/-- Claim C1 (amended).  In the growth regime the returned probability equals
1.0 exactly when verified >= threshold.  In the survival regime only one
direction survives: a below-threshold district always gets probability
strictly below 1.0 (hence probability 1.0 still implies verified >=
threshold), but a district at or above threshold is not guaranteed 1.0 — the
removal-risk branches can return as little as 0.90, so the result is merely
bounded below by 0.90.  The blended survival-mode probability of main is a
convex combination with the lag weight, hence strictly below 1.0 whenever
both blended inputs are, and the lag weight always lies in [0, 1]. -/
theorem growth_survival_prob_one_characterization :
    (∀ (v t : ℤ) (trend : String) (fws : ℤ) (padj rr r : ℚ),
        compute_district_prob v t trend fws padj rr = some r → (r = 1 ↔ t ≤ v)) ∧
    (∀ (vv : ℚ) (t pk : ℤ) (pr orr : ℚ) (dr dp : ℤ) (sl r : ℚ),
        compute_district_prob_survival vv t pk pr orr dr dp sl = some r →
          (vv < (t : ℚ) → r < 1) ∧ ((t : ℚ) ≤ vv → 90/100 ≤ r)) ∧
    (∀ lw g s : ℚ, 0 ≤ lw → lw ≤ 1 → g < 1 → s < 1 → blend_prob lw g s < 1) ∧
    (∀ d : ℕ, 0 ≤ lag_weight d ∧ lag_weight d ≤ 1) := by
  refine ⟨?_, ?_, ?_, ?_⟩
  · intro v t trend fws padj rr r h
    constructor
    · intro hr1
      by_contra hvt
      exact absurd hr1 (ne_of_lt (growth_prob_lt_one hvt h))
    · intro hvt
      simp only [compute_district_prob, if_pos hvt, Option.some_inj] at h
      exact h.symm
  · intro vv t pk pr orr dr dp sl r h
    exact ⟨fun hvt => survival_prob_lt_one_below hvt h,
      fun hvt => survival_prob_ge_point_nine_above hvt h⟩
  · intro lw g s h0 h1 hg hs
    unfold blend_prob
    rcases eq_or_lt_of_le h0 with h | h
    · rw [← h]
      ring_nf
      linarith
    · have hb1 : lw * g < lw * 1 := mul_lt_mul_of_pos_left hg h
      have hb2 : (1 - lw) * s ≤ (1 - lw) * 1 :=
        mul_le_mul_of_nonneg_left hs.le (by linarith)
      nlinarith
  · intro d
    refine ⟨le_max_left _ _, max_le (by norm_num) ?_⟩
    have : (0 : ℚ) ≤ (d : ℚ) / 14 := by positivity
    linarith

/-- Claim C1, counterexample to the claim as stated: in the survival regime a
district exactly at threshold (verified = threshold = 5000, no post-deadline
data yet) gets probability 0.9505, not 1.0 — the Bayesian prior removal rate
of 1.65% produces a removal-risk discount even though verified >= threshold. -/
theorem survival_prob_one_fails_at_threshold :
    compute_district_prob_survival 5000 5000 5000 0 0 0 0 0 = some (9505/10000) ∧
      (9505/10000 : ℚ) ≠ 1 := by
  refine ⟨by with_unfolding_all rfl, by norm_num⟩

theorem growth_survival_prob_one_characterization_witness :
    ((1 : ℚ) = 1 ↔ (5238 : ℤ) ≤ 5238) ∧
    (((4000 : ℚ) < ((5000 : ℤ) : ℚ) → (1/200 : ℚ) < 1) ∧
      (((5000 : ℤ) : ℚ) ≤ 4000 → 90/100 ≤ (1/200 : ℚ))) ∧
    blend_prob (1/2) 0 0 < 1 ∧
    (0 ≤ lag_weight 7 ∧ lag_weight 7 ≤ 1) := by
  refine ⟨?_, ?_, ?_, ?_⟩
  · exact growth_survival_prob_one_characterization.1 5238 5238 "STABLE" 0 0 0 1
      (by with_unfolding_all rfl)
  · exact growth_survival_prob_one_characterization.2.1 4000 5000 0 0 0 0 0 0
      (1/200) (by with_unfolding_all rfl)
  · exact growth_survival_prob_one_characterization.2.2.1 (1/2) 0 0
      (by norm_num) (by norm_num) (by norm_num) (by norm_num)
  · exact growth_survival_prob_one_characterization.2.2.2 7

/-- Claim C6 (amended).  compute_district_prob is total for every input, a
zero (or negative) threshold included: the one unguarded division is only
reached when the projection clears 90% of threshold, which forces a positive
threshold.  compute_rejection_rate guards its division, a zero peak yielding
0.0.  compute_district_prob_survival, however, is total only for a nonzero
threshold: the `buffer` division of line 276 is unguarded, and with
threshold = 0 and verified >= threshold it raises ZeroDivisionError (see the
counterexample). -/
theorem division_guards_amended :
    (∀ (v t : ℤ) (trend : String) (fws : ℤ) (padj rr : ℚ),
        (compute_district_prob v t trend fws padj rr).isSome = true) ∧
    (∀ (vv : ℚ) (t pk : ℤ) (pr orr : ℚ) (dr dp : ℤ) (sl : ℚ), t ≠ 0 →
        (compute_district_prob_survival vv t pk pr orr dr dp sl).isSome = true) ∧
    (∀ vals : List (ℕ × ℕ), (vals.map Prod.snd).foldr max 0 = 0 →
        compute_rejection_rate vals = 0) := by
  refine ⟨growth_prob_total, ?_, ?_⟩
  · intro vv t pk pr orr dr dp sl ht
    exact survival_prob_total vv t pk pr orr dr dp sl ht
  · intro vals h
    simp only [compute_rejection_rate]
    split_ifs with h1 h2
    · rfl
    · rw [h] at h2
      exact absurd h2 (lt_irrefl 0)
    · rfl

/-- Claim C6, counterexample to the claim as stated: with threshold = 0 and
verified = 0 the survival model evaluates `buffer = (verified - threshold) /
threshold` and raises ZeroDivisionError (modelled as none) — the division is
not guarded. -/
theorem survival_zero_threshold_faults :
    compute_district_prob_survival 0 0 0 0 0 0 0 0 = none := by
  with_unfolding_all rfl

theorem division_guards_amended_witness :
    (compute_district_prob 0 0 "STABLE" 0 0 0).isSome = true ∧
    ((5 : ℤ) ≠ 0 ∧
      (compute_district_prob_survival 0 5 0 0 0 0 0 0).isSome = true) ∧
    ((([((0 : ℕ), (0 : ℕ)), (1, 0)].map Prod.snd).foldr max 0 = 0) ∧
      compute_rejection_rate [(0, 0), (1, 0)] = 0) := by
  refine ⟨division_guards_amended.1 0 0 "STABLE" 0 0 0, ⟨by norm_num, ?_⟩,
    ⟨by with_unfolding_all rfl, ?_⟩⟩
  · exact division_guards_amended.2.1 0 5 0 0 0 0 0 0 (by norm_num)
  · exact division_guards_amended.2.2 [(0, 0), (1, 0)] (by with_unfolding_all rfl)

/-- Claim C8 (amended).  In the growth regime, for verified < threshold and
proj_pct < 0.65 the returned probability is at most 0.0201, not 0.02: the
ramp value proj_pct * 0.031 approaches 0.02015 as proj_pct approaches 0.65,
and rounding to four decimals can land on 0.0201 (see the counterexample).
The specific instance of the claim does hold: threshold 5000, verified 3000,
trend STABLE, projected_adjusted 3200 gives exactly 0.0198 <= 0.02. -/
theorem growth_ramp_bound_amended :
    (∀ (v t : ℤ) (trend : String) (fws : ℤ) (padj rr r : ℚ),
        v < t → (if 0 < t then padj / (t : ℚ) else 0) < 65/100 →
        compute_district_prob v t trend fws padj rr = some r →
        r ≤ 201/10000) ∧
    compute_district_prob 3000 5000 "STABLE" 0 3200 0 = some (198/10000) ∧
    (198/10000 : ℚ) ≤ 2/100 := by
  refine ⟨?_, by with_unfolding_all rfl, by norm_num⟩
  intro v t trend fws padj rr r hvt hpp h
  simp only [compute_district_prob, if_neg (not_le.mpr hvt), if_pos hpp,
    Option.some_inj] at h
  subst h
  have hb : (201 : ℚ) / 10000 = ((201 : ℤ) : ℚ) / 10000 := by norm_num
  rw [hb]
  apply rnd4_le_of_lt
  push_cast
  nlinarith

/-- Claim C8, counterexample to the ≤ 0.02 bound as stated: threshold 10000,
verified 3000, projected_adjusted 6490 gives proj_pct = 0.649 < 0.65 and
round(0.649 * 0.031, 4) = round(0.020119, 4) = 0.0201 > 0.02. -/
theorem growth_ramp_exceeds_bound :
    compute_district_prob 3000 10000 "STABLE" 0 6490 0 = some (201/10000) ∧
      (2/100 : ℚ) < 201/10000 := by
  refine ⟨by with_unfolding_all rfl, by norm_num⟩

theorem growth_ramp_bound_amended_witness :
    ((3000 : ℤ) < 10000) ∧
    ((if (0 : ℤ) < 10000 then (6490 : ℚ) / ((10000 : ℤ) : ℚ) else 0) < 65/100) ∧
    (201/10000 : ℚ) ≤ 201/10000 := by
  refine ⟨by norm_num, by norm_num, ?_⟩
  exact growth_ramp_bound_amended.1 3000 10000 "STABLE" 0 6490 0 (201/10000)
    (by norm_num) (by norm_num) (by with_unfolding_all rfl)

theorem zip_sub_sum : ∀ l : List ℕ,
    (((List.zipWith (fun a b => a - b) l l.tail).sum : ℕ) : ℤ) =
      (List.zipWith (fun (a b : ℕ) => max 0 ((a : ℤ) - (b : ℤ))) l l.tail).sum
  | [] => by simp
  | [a] => by simp
  | a :: b :: t => by
    have ih := zip_sub_sum (b :: t)
    simp only [List.zipWith_cons_cons, List.tail_cons, List.sum_cons] at ih ⊢
    rw [Nat.cast_add, ih]
    have hterm : ((a - b : ℕ) : ℤ) = max 0 ((a : ℤ) - (b : ℤ)) := by omega
    rw [hterm]

theorem le_foldr_max (l : List ℕ) : ∀ c ∈ l, c ≤ l.foldr max 0 := by
  induction l with
  | nil => simp
  | cons a t ih =>
    intro c hc
    rcases List.mem_cons.mp hc with h | h
    · subst h
      exact le_max_left _ _
    · exact le_trans (ih c h) (le_max_right _ _)

/-- Claim C5 (amended).  The per-district rejection rate is 0.0 for fewer
than two observations, is always nonnegative, divides the total
inter-snapshot declines (truncated subtraction equals the max-0 form) by the
peak count ever observed — the largest count in the series — and rounds the
quotient to four decimal places.  Contrary to the claim as stated, the result
equals the rounded quotient rather than the exact one, and it is not clamped
to [0,1]: repeated rise-and-fall series drive it above 1 (see the
counterexample). -/
theorem rejection_rate_formula_amended :
    (∀ vals : List (ℕ × ℕ), vals.length < 2 → compute_rejection_rate vals = 0) ∧
    (∀ vals : List (ℕ × ℕ), 0 ≤ compute_rejection_rate vals) ∧
    (∀ vals : List (ℕ × ℕ), ∀ c ∈ vals.map Prod.snd,
        c ≤ (vals.map Prod.snd).foldr max 0) ∧
    (∀ vals : List (ℕ × ℕ), 2 ≤ vals.length →
        0 < (vals.map Prod.snd).foldr max 0 →
        compute_rejection_rate vals =
          rnd4 ((((List.zipWith (fun (a b : ℕ) => max 0 ((a : ℤ) - (b : ℤ)))
              (vals.map Prod.snd) (vals.map Prod.snd).tail).sum : ℤ) : ℚ) /
            (((vals.map Prod.snd).foldr max 0 : ℕ) : ℚ))) := by
  refine ⟨?_, ?_, ?_, ?_⟩
  · intro vals h
    simp [compute_rejection_rate, if_pos h]
  · intro vals
    simp only [compute_rejection_rate]
    split_ifs with h1 h2
    · norm_num
    · exact rnd4_nonneg (div_nonneg (Nat.cast_nonneg _) (Nat.cast_nonneg _))
    · norm_num
  · intro vals
    exact le_foldr_max _
  · intro vals h2 hpk
    simp only [compute_rejection_rate]
    rw [if_neg (by omega), if_pos hpk]
    have hz : (((List.zipWith (fun a b => a - b) (vals.map Prod.snd)
        (vals.map Prod.snd).tail).sum : ℕ) : ℚ) =
        (((List.zipWith (fun (a b : ℕ) => max 0 ((a : ℤ) - (b : ℤ)))
          (vals.map Prod.snd) (vals.map Prod.snd).tail).sum : ℤ) : ℚ) := by
      rw [← zip_sub_sum (vals.map Prod.snd)]
      norm_cast
      simp [List.map_map, Function.comp_def]
    rw [hz]

/-- Claim C5, counterexample to the claim as stated: the series 10, 0, 10, 0
has total declines 20 against peak 10, and compute_rejection_rate returns
2.0 — there is no clamp to [0,1] in the code; and the series 3, 1 returns
round(2/3, 4) = 0.6667, not the exact quotient 2/3. -/
theorem rejection_rate_exceeds_one :
    compute_rejection_rate [(0, 10), (1, 0), (2, 10), (3, 0)] = 2 ∧ (1 : ℚ) < 2 ∧
    compute_rejection_rate [(0, 3), (1, 1)] = 6667/10000 ∧
      (6667/10000 : ℚ) ≠ 2/3 := by
  refine ⟨by with_unfolding_all rfl, by norm_num, by with_unfolding_all rfl, by norm_num⟩

theorem rejection_rate_formula_amended_witness :
    compute_rejection_rate [((0 : ℕ), (3 : ℕ))] = 0 ∧
    0 ≤ compute_rejection_rate [((0 : ℕ), (10 : ℕ)), (1, 0)] ∧
    ((3 : ℕ) ≤ ([((0 : ℕ), (3 : ℕ)), (1, 1)].map Prod.snd).foldr max 0) ∧
    compute_rejection_rate [((0 : ℕ), (3 : ℕ)), (1, 1)] =
      rnd4 ((((List.zipWith (fun (a b : ℕ) => max 0 ((a : ℤ) - (b : ℤ)))
          ([((0 : ℕ), (3 : ℕ)), (1, 1)].map Prod.snd)
          ([((0 : ℕ), (3 : ℕ)), (1, 1)].map Prod.snd).tail).sum : ℤ) : ℚ) /
        ((([((0 : ℕ), (3 : ℕ)), (1, 1)].map Prod.snd).foldr max 0 : ℕ) : ℚ)) := by
  refine ⟨?_, ?_, ?_, ?_⟩
  · exact rejection_rate_formula_amended.1 [(0, 3)] (by simp)
  · exact rejection_rate_formula_amended.2.1 [(0, 10), (1, 0)]
  · exact rejection_rate_formula_amended.2.2.1 [(0, 3), (1, 1)] 3 (by simp)
  · exact rejection_rate_formula_amended.2.2.2 [(0, 3), (1, 1)] (by simp) (by decide)

theorem foldl_set_incr_length_sum (f : ℚ → ℕ) (n : ℕ) (hf : ∀ dt, f dt < n)
    (l : List ℚ) : ∀ buckets : List ℕ, buckets.length = n →
    (l.foldl (fun b dt => b.set (f dt) (b.getD (f dt) 0 + 1)) buckets).length = n ∧
    (l.foldl (fun b dt => b.set (f dt) (b.getD (f dt) 0 + 1)) buckets).sum
      = buckets.sum + l.length := by
  induction l with
  | nil =>
    intro buckets hb
    simpa using hb
  | cons dt rest ih =>
    intro buckets hb
    have hlt : f dt < buckets.length := by rw [hb]; exact hf dt
    have h1 : (buckets.set (f dt) (buckets.getD (f dt) 0 + 1)).length = n := by
      rw [List.length_set]; exact hb
    have hrec := ih _ h1
    refine ⟨by simpa [List.foldl_cons] using hrec.1, ?_⟩
    rw [List.foldl_cons, hrec.2, sum_set_getD_add buckets (f dt) 0 1 hlt]
    simp only [List.length_cons]
    omega

/-- Claim C10 (confirmed, for a positive bucket count — the only call site
uses the default of 10): build_weekly_buckets returns exactly n_buckets
counts whose sum is the number of input timestamps (the final bucket absorbs
the upper boundary through the min clamp), and the empty input yields
n_buckets zeros. -/
theorem weekly_buckets_conserve_count (dates : List ℚ) (n_buckets : ℕ)
    (hn : 0 < n_buckets) :
    (dates = [] → build_weekly_buckets dates n_buckets = List.replicate n_buckets 0) ∧
    (build_weekly_buckets dates n_buckets).length = n_buckets ∧
    (build_weekly_buckets dates n_buckets).sum = dates.length := by
  by_cases hd : dates = []
  · refine ⟨fun _ => by rw [build_weekly_buckets, if_pos hd], ?_, ?_⟩
    · rw [build_weekly_buckets, if_pos hd, List.length_replicate]
    · rw [build_weekly_buckets, if_pos hd, List.sum_replicate, hd]
      simp
  · refine ⟨fun h => absurd h hd, ?_⟩
    simp only [build_weekly_buckets, if_neg hd]
    have hres := foldl_set_incr_length_sum
      (fun dt => min (Int.toNat ⌊((⌊dt - (dates.mergeSort (· ≤ ·)).headD 0⌋ : ℤ) : ℚ) /
          ((max ⌊(dates.mergeSort (· ≤ ·)).getLastD 0 -
            (dates.mergeSort (· ≤ ·)).headD 0⌋ 1 : ℤ) / (n_buckets : ℚ))⌋)
        (n_buckets - 1))
      n_buckets
      (fun dt => lt_of_le_of_lt (min_le_right _ _) (by omega))
      (dates.mergeSort (· ≤ ·))
      (List.replicate n_buckets 0)
      (List.length_replicate _ _)
    refine ⟨hres.1, ?_⟩
    rw [hres.2, List.sum_replicate, List.length_mergeSort]
    simp

theorem weekly_buckets_conserve_count_witness :
    (([0, 1] : List ℚ) = [] → build_weekly_buckets [0, 1] 10 = List.replicate 10 0) ∧
    (build_weekly_buckets [0, 1] 10).length = 10 ∧
    (build_weekly_buckets [0, 1] 10).sum = ([0, 1] : List ℚ).length :=
  weekly_buckets_conserve_count [0, 1] 10 (by norm_num)

theorem bloom_pos_lt (digest : String → List ℕ) (key : String) {m : ℕ}
    (k : ℕ) (hm : 0 < m) :
    ∀ pos ∈ bloom_hash_positions digest key m k, pos < m := by
  intro pos hpos
  simp only [bloom_hash_positions, List.mem_map] at hpos
  obtain ⟨i, _, hi⟩ := hpos
  rw [← hi]
  exact Nat.mod_lt _ hm

theorem bloomTestBit_setBloomBit_self {bits : List ℕ} {pos : ℕ} {m : ℕ}
    (hm : 8 ∣ m) (hlen : bits.length = m / 8) (hpos : pos < m) :
    bloomTestBit (setBloomBit bits pos) pos = true := by
  have hidx : pos >>> 3 < bits.length := by
    rw [hlen, Nat.shiftRight_eq_div_pow]
    exact Nat.div_lt_div_of_lt_of_dvd hm hpos
  simp only [bloomTestBit, setBloomBit]
  rw [getD_set_self _ _ _ _ hidx, Nat.testBit_or]
  have h2 : (1 <<< (pos &&& 7)).testBit (pos &&& 7) = true := by
    rw [Nat.shiftLeft_eq, one_mul]
    exact Nat.testBit_two_pow_self
  rw [h2, Bool.or_true]

theorem bloomTestBit_setBloomBit_mono {bits : List ℕ} {pos pos' : ℕ}
    (h : bloomTestBit bits pos = true) :
    bloomTestBit (setBloomBit bits pos') pos = true := by
  simp only [bloomTestBit, setBloomBit] at h ⊢
  by_cases hb : pos' >>> 3 = pos >>> 3
  · rw [hb]
    by_cases hin : pos >>> 3 < bits.length
    · rw [getD_set_self _ _ _ _ hin, Nat.testBit_or, h, Bool.true_or]
    · rw [List.set_eq_of_length_le (by omega), h]
  · rw [getD_set_ne _ _ _ hb, h]

theorem bloomTestBit_fold_mono {bits : List ℕ} {pos : ℕ} (ps : List ℕ)
    (h : bloomTestBit bits pos = true) :
    bloomTestBit (ps.foldl setBloomBit bits) pos = true := by
  induction ps generalizing bits with
  | nil => exact h
  | cons q qs ih => exact ih (bloomTestBit_setBloomBit_mono h)

theorem setBloomBit_length (bits : List ℕ) (pos : ℕ) :
    (setBloomBit bits pos).length = bits.length := List.length_set _ _ _

theorem fold_setBloomBit_length (ps : List ℕ) (bits : List ℕ) :
    (ps.foldl setBloomBit bits).length = bits.length := by
  induction ps generalizing bits with
  | nil => rfl
  | cons q qs ih => rw [List.foldl_cons, ih, setBloomBit_length]

theorem bloomTestBit_insert_all {m : ℕ} (hm : 8 ∣ m) (ps : List ℕ) :
    ∀ (bits : List ℕ), bits.length = m / 8 → ∀ pos ∈ ps, pos < m →
      bloomTestBit (ps.foldl setBloomBit bits) pos = true := by
  induction ps with
  | nil => intro bits _ pos hpos; simp at hpos
  | cons q qs ih =>
    intro bits hlen pos hpos hlt
    rcases List.mem_cons.mp hpos with h | h
    · subst h
      rw [List.foldl_cons]
      exact bloomTestBit_fold_mono qs
        (bloomTestBit_setBloomBit_self hm hlen hlt)
    · rw [List.foldl_cons]
      exact ih _ (by rw [setBloomBit_length]; exact hlen) pos h hlt

theorem bloomTestBit_keys_fold_mono {m k : ℕ} (digest : String → List ℕ)
    (keys : List String) {bits : List ℕ} {pos : ℕ}
    (h : bloomTestBit bits pos = true) :
    bloomTestBit (keys.foldl (fun b key =>
      (bloom_hash_positions digest key m k).foldl setBloomBit b) bits) pos
      = true := by
  induction keys generalizing bits with
  | nil => exact h
  | cons a t ih => exact ih (bloomTestBit_fold_mono _ h)

theorem insert_keys_length {m k : ℕ} (digest : String → List ℕ)
    (keys : List String) (bits : List ℕ) :
    (keys.foldl (fun b key =>
        (bloom_hash_positions digest key m k).foldl setBloomBit b) bits).length
      = bits.length := by
  induction keys generalizing bits with
  | nil => rfl
  | cons a t ih => rw [List.foldl_cons, ih, fold_setBloomBit_length]

/-- Claim C7 (confirmed): the bloom index has no false negatives.  For any
key inserted by build_bloom_filter, every one of its k bit positions is set
in the final bit array (for the power-of-two/byte-aligned table sizes the
code uses, here any positive multiple of 8, covering the fixed m = 65536),
so a membership test on that key answers true. -/
theorem bloom_no_false_negatives (digest : String → List ℕ)
    (keys : List String) (m k : ℕ) (hm : 0 < m) (h8 : 8 ∣ m)
    (key : String) (hkey : key ∈ keys) :
    ∀ pos ∈ bloom_hash_positions digest key m k,
      bloomTestBit (build_bloom_filter digest keys m k) pos = true := by
  intro pos hpos
  obtain ⟨l1, l2, hsplit⟩ := List.append_of_mem hkey
  subst hsplit
  unfold build_bloom_filter
  rw [List.foldl_append, List.foldl_cons]
  apply bloomTestBit_keys_fold_mono
  exact bloomTestBit_insert_all h8 _ _
    (by rw [insert_keys_length, List.length_replicate])
    pos hpos (bloom_pos_lt digest key k hm pos hpos)

theorem bloom_no_false_negatives_witness :
    (0 < 8) ∧ ((8 : ℕ) ∣ 8) ∧ ("A" ∈ ["A"]) ∧
    (0 ∈ bloom_hash_positions (fun _ => []) "A" 8 1) ∧
    bloomTestBit (build_bloom_filter (fun _ => []) ["A"] 8 1) 0 = true := by
  have hp : bloom_hash_positions (fun _ => []) "A" 8 1 = [0] := by
    with_unfolding_all rfl
  have hmem : 0 ∈ bloom_hash_positions (fun _ => []) "A" 8 1 := by
    rw [hp]; exact List.mem_singleton.mpr rfl
  refine ⟨by norm_num, by norm_num, by simp, hmem, ?_⟩
  exact bloom_no_false_negatives (fun _ => []) ["A"] 8 1 (by norm_num)
    (by norm_num) "A" (by simp) 0 hmem

theorem getD_replicate_zero (n m : ℕ) : (List.replicate n (0 : ℚ)).getD m 0 = 0 := by
  induction n generalizing m with
  | zero => simp
  | succ k ih =>
    cases m with
    | zero => simp [List.replicate_succ]
    | succ j => simpa [List.replicate_succ] using ih j

theorem distUpdate_cons_skip (dp : List ℚ) (p : ℚ) (k : ℕ) (ks : List ℕ)
    (acc : List ℚ) (h : dp.getD k 0 = 0) :
    distUpdate dp p (k :: ks) acc = distUpdate dp p ks acc := by
  simp only [distUpdate]
  rw [if_pos h]

theorem distUpdate_cons_write (dp : List ℚ) (p : ℚ) (k : ℕ) (ks : List ℕ)
    (acc : List ℚ) (h : ¬ dp.getD k 0 = 0) (h1 : k + 1 < acc.length) :
    distUpdate dp p (k :: ks) acc =
      distUpdate dp p ks
        ((acc.set (k + 1) (acc.getD (k + 1) 0 + dp.getD k 0 * p)).set k
          ((acc.set (k + 1) (acc.getD (k + 1) 0 + dp.getD k 0 * p)).getD k 0 +
            dp.getD k 0 * (1 - p))) := by
  have h2 : k < (acc.set (k + 1) (acc.getD (k + 1) 0 + dp.getD k 0 * p)).length := by
    rw [List.length_set]; omega
  simp only [distUpdate, h, if_false, setChecked, if_pos h1, if_pos h2]

theorem distUpdate_spec (dp : List ℚ) (p : ℚ)
    (hlast : dp.getD (dp.length - 1) 0 = 0) :
    ∀ (b a : ℕ) (acc : List ℚ), a + b = dp.length → acc.length = dp.length →
    ∃ nd, distUpdate dp p (List.range' a b) acc = some nd ∧
      nd.length = dp.length ∧
      (∀ m, m < a → nd.getD m 0 = acc.getD m 0) ∧
      (∀ m, a ≤ m → nd.getD m 0 = acc.getD m 0 + dp.getD m 0 * (1 - p) +
        (if a < m then dp.getD (m - 1) 0 * p else 0)) := by
  intro b
  induction b with
  | zero =>
    intro a acc hab hacc
    refine ⟨acc, by simp [distUpdate], hacc, fun m _ => rfl, ?_⟩
    intro m hm
    have h1 : dp.getD m 0 = 0 := List.getD_eq_default _ _ (by omega)
    have h2 : (if a < m then dp.getD (m - 1) 0 * p else 0) = 0 := by
      split_ifs with h
      · rw [List.getD_eq_default _ _ (by omega), zero_mul]
      · rfl
    rw [h1, h2]
    ring
  | succ b ih =>
    intro a acc hab hacc
    rw [List.range'_succ]
    by_cases hz : dp.getD a 0 = 0
    · obtain ⟨nd, hnd, hlen, hlt, hge⟩ := ih (a + 1) acc (by omega) hacc
      refine ⟨nd, by rw [distUpdate_cons_skip dp p a _ acc hz]; exact hnd, hlen, ?_, ?_⟩
      · intro m hm
        exact hlt m (by omega)
      · intro m hm
        rcases eq_or_lt_of_le hm with heq | hlt2
        · rw [← heq, hlt a (by omega), hz, if_neg (lt_irrefl a)]
          ring
        · rw [hge m (by omega)]
          by_cases hm1 : m = a + 1
          · rw [hm1, if_neg (by omega), if_pos (by omega)]
            simp only [Nat.add_sub_cancel]
            rw [hz]
            ring
          · rw [if_pos (by omega : a + 1 < m), if_pos (by omega : a < m)]
    · have ha_lt : a < dp.length - 1 := by
        rcases Nat.lt_or_ge a (dp.length - 1) with h | h
        · exact h
        · exfalso
          have haeq : a = dp.length - 1 := by omega
          rw [haeq] at hz
          exact hz hlast
      have h1lt : a + 1 < acc.length := by omega
      set acc1 := acc.set (a + 1) (acc.getD (a + 1) 0 + dp.getD a 0 * p) with hacc1
      set acc2 := acc1.set a (acc1.getD a 0 + dp.getD a 0 * (1 - p)) with hacc2
      have hacc1len : acc1.length = dp.length := by
        rw [hacc1, List.length_set]; exact hacc
      have hacc2len : acc2.length = dp.length := by
        rw [hacc2, List.length_set]; exact hacc1len
      obtain ⟨nd, hnd, hlen, hlt, hge⟩ := ih (a + 1) acc2 (by omega) hacc2len
      refine ⟨nd, ?_, hlen, ?_, ?_⟩
      · rw [distUpdate_cons_write dp p a _ acc hz h1lt]
        exact hnd
      · intro m hm
        rw [hlt m (by omega), hacc2, getD_set_ne _ _ _ (by omega : a ≠ m),
          hacc1, getD_set_ne _ _ _ (by omega : a + 1 ≠ m)]
      · intro m hm
        rcases eq_or_lt_of_le hm with heq | hlt2
        · rw [← heq, hlt a (by omega), hacc2,
            getD_set_self _ _ _ _ (by omega : a < acc1.length), hacc1,
            getD_set_ne _ _ _ (by omega : a + 1 ≠ a), if_neg (lt_irrefl a)]
          ring
        · rw [hge m (by omega)]
          by_cases hm1 : m = a + 1
          · subst hm1
            rw [if_neg (by omega), if_pos (by omega), hacc2,
              getD_set_ne _ _ _ (by omega : a ≠ a + 1), hacc1,
              getD_set_self _ _ _ _ (by omega : a + 1 < acc.length)]
            simp only [Nat.add_sub_cancel]
            ring
          · rw [if_pos (by omega : a + 1 < m), if_pos (by omega : a < m), hacc2,
              getD_set_ne _ _ _ (by omega : a ≠ m), hacc1,
              getD_set_ne _ _ _ (by omega : a + 1 ≠ m)]

theorem distLoop_spec (n : ℕ) : ∀ (ps : List ℚ) (dp : List ℚ) (j : ℕ),
    dp.length = n + 1 → (∀ k, j < k → dp.getD k 0 = 0) → j + ps.length ≤ n →
    ∃ d, distLoop n ps dp = some d ∧ d.length = n + 1 ∧
      (∀ k, d.getD k 0 = List.foldl berStep (fun k => dp.getD k 0) ps k) ∧
      (∀ k, j + ps.length < k → d.getD k 0 = 0) := by
  intro ps
  induction ps with
  | nil =>
    intro dp j hlen hsupp hle
    exact ⟨dp, rfl, hlen, fun k => rfl, fun k hk => hsupp k (by simpa using hk)⟩
  | cons p ps ih =>
    intro dp j hlen hsupp hle
    have hjn : j < n := by
      simp only [List.length_cons] at hle
      omega
    have hlast : dp.getD (dp.length - 1) 0 = 0 := by
      apply hsupp
      omega
    obtain ⟨nd, hnd, hndlen, hndlow, hndge⟩ :=
      distUpdate_spec dp p hlast (n + 1) 0 (List.replicate (n + 1) 0)
        (by omega) (by rw [List.length_replicate]; omega)
    have hstep : (fun k => nd.getD k 0) = berStep (fun k => dp.getD k 0) p := by
      funext m
      rw [hndge m (Nat.zero_le m), getD_replicate_zero]
      simp only [berStep]
      rcases Nat.eq_zero_or_pos m with h0 | h0
      · subst h0
        simp
      · rw [if_pos h0, if_neg (by omega)]
        ring
    have hndsupp : ∀ k, j + 1 < k → nd.getD k 0 = 0 := by
      intro k hk
      rw [hndge k (Nat.zero_le k), getD_replicate_zero, hsupp k (by omega),
        if_pos (by omega)]
      rw [hsupp (k - 1) (by omega)]
      ring
    obtain ⟨d, hd, hdlen, hdpt, hdsupp⟩ := ih nd (j + 1) (by rw [hndlen, hlen]) hndsupp
      (by simp only [List.length_cons] at hle; omega)
    refine ⟨d, ?_, hdlen, ?_, ?_⟩
    · simp only [distLoop, List.range_eq_range']
      rw [hnd]
      exact hd
    · intro k
      rw [hdpt k, hstep]
      rfl
    · intro k hk
      apply hdsupp
      simp only [List.length_cons] at hk
      omega

theorem compute_distribution_spec (probs : List ℚ) :
    ∃ d, compute_distribution probs = some d ∧ d.length = probs.length + 1 ∧
      (∀ k, d.getD k 0 = berPMF probs k) ∧
      (∀ k, probs.length < k → d.getD k 0 = 0) := by
  obtain ⟨d, hd, hlen, hpt, hsupp⟩ := distLoop_spec probs.length probs
    ((List.replicate (probs.length + 1) 0).set 0 1) 0
    (by rw [List.length_set, List.length_replicate])
    (fun k hk => by
      rw [getD_set_ne _ _ _ (by omega : 0 ≠ k), getD_replicate_zero])
    (by omega)
  have hinit : (fun k => ((List.replicate (probs.length + 1) 0).set 0 1).getD k 0)
      = dirac := by
    funext m
    rcases Nat.eq_zero_or_pos m with h0 | h0
    · rw [h0, getD_set_self _ _ _ _ (by rw [List.length_replicate]; omega)]
      rfl
    · rw [getD_set_ne _ _ _ (by omega : 0 ≠ m), getD_replicate_zero]
      simp [dirac, Nat.pos_iff_ne_zero.mp h0]
  refine ⟨d, hd, hlen, ?_, by simpa using hsupp⟩
  intro k
  rw [hpt k, hinit]
  rfl

theorem sum_Ico_pred (f : ℕ → ℚ) (s M : ℕ) :
    Finset.sum (Finset.Ico (s + 1) M) (fun k => f (k - 1)) =
      Finset.sum (Finset.Ico s (M - 1)) f := by
  rw [Finset.sum_Ico_eq_sum_range, Finset.sum_Ico_eq_sum_range]
  rw [show M - (s + 1) = (M - 1) - s by omega]
  apply Finset.sum_congr rfl
  intro i _
  congr 1
  omega

theorem sum_Ico_drop_top (f : ℕ → ℚ) (s M : ℕ) (hM : 1 ≤ M)
    (hf : f (M - 1) = 0) :
    Finset.sum (Finset.Ico s (M - 1)) f = Stail M s f := by
  unfold Stail
  by_cases hs : s ≤ M - 1
  · have h2 : Finset.Ico s M = Finset.Ico s ((M - 1) + 1) := by
      congr 1
      omega
    rw [h2, Finset.sum_Ico_succ_top hs, hf, add_zero]
  · rw [Finset.Ico_eq_empty (by omega), Finset.Ico_eq_empty (by omega)]

theorem Stail_step_succ (M : ℕ) (f : ℕ → ℚ) (p : ℚ) (s : ℕ) (hM : 1 ≤ M)
    (hf : f (M - 1) = 0) :
    Stail M (s + 1) (berStep f p) =
      (1 - p) * Stail M (s + 1) f + p * Stail M s f := by
  unfold Stail berStep
  have hcongr : Finset.sum (Finset.Ico (s + 1) M)
      (fun k => f k * (1 - p) + (if k = 0 then 0 else f (k - 1) * p)) =
      Finset.sum (Finset.Ico (s + 1) M)
      (fun k => f k * (1 - p) + f (k - 1) * p) := by
    apply Finset.sum_congr rfl
    intro k hk
    have := (Finset.mem_Ico.mp hk).1
    rw [if_neg (by omega)]
  rw [hcongr, Finset.sum_add_distrib, ← Finset.sum_mul, ← Finset.sum_mul]
  rw [sum_Ico_pred f s M, sum_Ico_drop_top f s M hM hf]
  unfold Stail
  ring

theorem Stail_step_zero (M : ℕ) (f : ℕ → ℚ) (p : ℚ) (hM : 1 ≤ M)
    (hf : f (M - 1) = 0) :
    Stail M 0 (berStep f p) = Stail M 0 f := by
  have hshift : Finset.sum (Finset.Ico 1 M) (fun k => f (k - 1)) = Stail M 0 f := by
    rw [show (1 : ℕ) = 0 + 1 from rfl, sum_Ico_pred f 0 M,
      sum_Ico_drop_top f 0 M hM hf]
  have hsplit : Stail M 0 f = f 0 + Finset.sum (Finset.Ico 1 M) f := by
    unfold Stail
    exact Finset.sum_eq_sum_Ico_succ_bot (by omega : 0 < M) f
  have hsplit2 : Stail M 0 (berStep f p) =
      berStep f p 0 + Finset.sum (Finset.Ico 1 M) (berStep f p) := by
    unfold Stail
    exact Finset.sum_eq_sum_Ico_succ_bot (by omega : 0 < M) _
  have hcongr : Finset.sum (Finset.Ico 1 M) (berStep f p) =
      Finset.sum (Finset.Ico 1 M) (fun k => f k * (1 - p) + f (k - 1) * p) := by
    apply Finset.sum_congr rfl
    intro k hk
    have := (Finset.mem_Ico.mp hk).1
    unfold berStep
    rw [if_neg (by omega)]
  have hb : berStep f p 0 = f 0 * (1 - p) := by
    unfold berStep
    rw [if_pos rfl, add_zero]
  rw [hsplit2, hb, hcongr, Finset.sum_add_distrib, ← Finset.sum_mul,
    ← Finset.sum_mul, hshift, hsplit]
  ring

theorem berStep_nonneg {f : ℕ → ℚ} {p : ℚ} (hf : ∀ k, 0 ≤ f k) (hp : 0 ≤ p)
    (hp1 : p ≤ 1) : ∀ k, 0 ≤ berStep f p k := by
  intro k
  unfold berStep
  split_ifs
  · have := hf k
    nlinarith
  · have h1 := hf k
    have h2 := hf (k - 1)
    nlinarith

theorem berStep_supp {f : ℕ → ℚ} {p : ℚ} {c : ℕ} (hc : ∀ k, c < k → f k = 0) :
    ∀ k, c + 1 < k → berStep f p k = 0 := by
  intro k hk
  unfold berStep
  rw [hc k (by omega), if_neg (by omega), hc (k - 1) (by omega)]
  ring

theorem foldl_berStep_nonneg (ps : List ℚ) :
    ∀ f : ℕ → ℚ, (∀ q ∈ ps, 0 ≤ q ∧ q ≤ 1) → (∀ k, 0 ≤ f k) →
    ∀ k, 0 ≤ (ps.foldl berStep f) k := by
  induction ps with
  | nil => intro f _ hf k; exact hf k
  | cons p t ih =>
    intro f hps hf k
    have hp := hps p (List.mem_cons_self _ _)
    exact ih (berStep f p) (fun q hq => hps q (List.mem_cons_of_mem _ hq))
      (berStep_nonneg hf hp.1 hp.2) k

theorem foldl_berStep_supp (ps : List ℚ) :
    ∀ (f : ℕ → ℚ) (c : ℕ), (∀ k, c < k → f k = 0) →
    ∀ k, c + ps.length < k → (ps.foldl berStep f) k = 0 := by
  induction ps with
  | nil =>
    intro f c hf k hk
    exact hf k (by simpa using hk)
  | cons p t ih =>
    intro f c hf k hk
    simp only [List.foldl_cons]
    apply ih (berStep f p) (c + 1) (berStep_supp hf)
    simp only [List.length_cons] at hk
    omega

theorem Stail_anti {f : ℕ → ℚ} (hf : ∀ k, 0 ≤ f k) {M t t' : ℕ}
    (h : t' ≤ t) : Stail M t f ≤ Stail M t' f :=
  Finset.sum_le_sum_of_subset_of_nonneg
    (Finset.Ico_subset_Ico h le_rfl) (fun i _ _ => hf i)

theorem fold_dom (M : ℕ) (v : List ℚ) : ∀ (g g' : ℕ → ℚ) (c : ℕ),
    (∀ q ∈ v, 0 ≤ q ∧ q ≤ 1) → (∀ k, c < k → g k = 0) →
    (∀ k, c < k → g' k = 0) → c + v.length < M →
    (∀ t, Stail M t g ≤ Stail M t g') →
    ∀ t, Stail M t (v.foldl berStep g) ≤ Stail M t (v.foldl berStep g') := by
  induction v with
  | nil =>
    intro g g' c _ _ _ _ hdom t
    exact hdom t
  | cons p ps ih =>
    intro g g' c hv hg hg' hcM hdom t
    simp only [List.foldl_cons]
    have hp := hv p (List.mem_cons_self _ _)
    have hM1 : 1 ≤ M := by omega
    have hgM : g (M - 1) = 0 := hg _ (by simp only [List.length_cons] at hcM; omega)
    have hgM2 : g' (M - 1) = 0 := hg' _ (by simp only [List.length_cons] at hcM; omega)
    apply ih (berStep g p) (berStep g' p) (c + 1)
      (fun q hq => hv q (List.mem_cons_of_mem _ hq))
      (berStep_supp hg) (berStep_supp hg')
      (by simp only [List.length_cons] at hcM; omega)
    intro u
    cases u with
    | zero =>
      rw [Stail_step_zero M g p hM1 hgM, Stail_step_zero M g' p hM1 hgM2]
      exact hdom 0
    | succ s =>
      rw [Stail_step_succ M g p s hM1 hgM, Stail_step_succ M g' p s hM1 hgM2]
      have h1 := hdom (s + 1)
      have h2 := hdom s
      have hb1 : (1 - p) * Stail M (s + 1) g ≤ (1 - p) * Stail M (s + 1) g' :=
        mul_le_mul_of_nonneg_left h1 (by linarith [hp.2])
      have hb2 : p * Stail M s g ≤ p * Stail M s g' :=
        mul_le_mul_of_nonneg_left h2 hp.1
      linarith

theorem fold_sum_inv (M : ℕ) (v : List ℚ) : ∀ (f : ℕ → ℚ) (c : ℕ),
    (∀ k, c < k → f k = 0) → c + v.length < M →
    Stail M 0 (v.foldl berStep f) = Stail M 0 f := by
  induction v with
  | nil => intro f c _ _; rfl
  | cons p ps ih =>
    intro f c hf hcM
    simp only [List.foldl_cons]
    rw [ih (berStep f p) (c + 1) (berStep_supp hf)
      (by simp only [List.length_cons] at hcM; omega)]
    exact Stail_step_zero M f p (by omega)
      (hf _ (by simp only [List.length_cons] at hcM; omega))

theorem Stail_dirac (M : ℕ) (hM : 1 ≤ M) : Stail M 0 dirac = 1 := by
  unfold Stail
  rw [Finset.sum_eq_sum_Ico_succ_bot (by omega : 0 < M) dirac]
  have hz : Finset.sum (Finset.Ico 1 M) dirac = 0 := by
    apply Finset.sum_eq_zero
    intro k hk
    have := (Finset.mem_Ico.mp hk).1
    unfold dirac
    rw [if_neg (by omega)]
  rw [hz]
  unfold dirac
  simp

theorem sum_getD_range : ∀ (l : List ℚ) (K : ℕ), l.length ≤ K →
    Finset.sum (Finset.range K) (fun k => l.getD k 0) = l.sum := by
  intro l
  induction l with
  | nil =>
    intro K _
    apply Finset.sum_eq_zero
    intro k _
    simp
  | cons a t ih =>
    intro K hK
    obtain ⟨K1, rfl⟩ : ∃ K1, K = K1 + 1 :=
      ⟨K - 1, by simp only [List.length_cons] at hK; omega⟩
    rw [Finset.sum_range_succ']
    simp only [List.getD_cons_succ, List.getD_cons_zero]
    rw [ih K1 (by simp only [List.length_cons] at hK; omega), List.sum_cons]
    ring

theorem getD_drop_q (l : List ℚ) : ∀ (t j : ℕ),
    (l.drop t).getD j 0 = l.getD (t + j) 0 := by
  induction l with
  | nil => intro t j; simp
  | cons a r ih =>
    intro t j
    cases t with
    | zero => simp
    | succ s =>
      simp only [List.drop_succ_cons]
      rw [ih s j, show s + 1 + j = (s + j) + 1 by omega, List.getD_cons_succ]

theorem sum_drop_eq_sum_Ico (l : List ℚ) (t : ℕ) :
    (l.drop t).sum = Finset.sum (Finset.Ico t l.length) (fun k => l.getD k 0) := by
  rw [Finset.sum_Ico_eq_sum_range]
  rw [← sum_getD_range (l.drop t) (l.length - t) (le_of_eq (List.length_drop t l))]
  apply Finset.sum_congr rfl
  intro i _
  rw [getD_drop_q l t i]

theorem sum_Ico_getD_ext (l : List ℚ) {t M : ℕ} (hM : l.length ≤ M) :
    Finset.sum (Finset.Ico t l.length) (fun k => l.getD k 0) =
      Stail M t (fun k => l.getD k 0) := by
  unfold Stail
  apply Finset.sum_subset (Finset.Ico_subset_Ico le_rfl hM)
  intro x hx hnx
  have hx1 := Finset.mem_Ico.mp hx
  have hlex : l.length ≤ x := by
    rcases Nat.lt_or_ge x l.length with hc | hc
    · exact absurd (Finset.mem_Ico.mpr ⟨hx1.1, hc⟩) hnx
    · exact hc
  exact List.getD_eq_default _ _ hlex

/-- Claim C2 (confirmed): for every probability vector with entries in [0,1]
(the hypothesis the claim states; the proof does not in fact need it),
compute_distribution returns without fault — in particular the checked inner
write `new_dp[k+1] += dp[k]*p` never lands out of range, because dp[k] = 0
for every k beyond the number of districts already processed — and the
result has length n+1 and sums to exactly 1 over exact arithmetic; the empty
input yields [1.0]. -/
theorem compute_distribution_length_and_sum (probs : List ℚ)
    (hp : ∀ p ∈ probs, 0 ≤ p ∧ p ≤ 1) :
    ((compute_distribution probs).map (fun dp => (dp.length, dp.sum))
        = some (probs.length + 1, 1)) ∧
    compute_distribution [] = some [1] := by
  constructor
  · obtain ⟨d, hd, hlen, hpt, hsupp⟩ := compute_distribution_spec probs
    rw [hd]
    have hsum : d.sum = 1 := by
      rw [← sum_getD_range d (probs.length + 1) (le_of_eq hlen)]
      have hcongr : Finset.sum (Finset.range (probs.length + 1))
          (fun k => d.getD k 0) = Stail (probs.length + 1) 0 (berPMF probs) := by
        rw [Finset.range_eq_Ico]
        unfold Stail
        exact Finset.sum_congr rfl (fun k _ => hpt k)
      rw [hcongr]
      have hdir : ∀ k, 0 < k → dirac k = 0 := by
        intro k hk
        unfold dirac
        rw [if_neg (by omega)]
      rw [show berPMF probs = probs.foldl berStep dirac from rfl,
        fold_sum_inv (probs.length + 1) probs dirac 0 hdir (by omega)]
      exact Stail_dirac _ (by omega)
    simp only [Option.map_some']
    rw [hlen, hsum]
  · with_unfolding_all rfl

theorem compute_distribution_length_and_sum_witness :
    ((0 : ℚ) ≤ 1/2 ∧ (1/2 : ℚ) ≤ 1) ∧
    ((compute_distribution [1/2]).map (fun dp => (dp.length, dp.sum)) =
      some (2, 1)) ∧
    compute_distribution [] = some [1] := by
  have h := compute_distribution_length_and_sum [1/2] (by
    intro p hmem
    rw [List.mem_singleton] at hmem
    subst hmem
    constructor <;> norm_num)
  exact ⟨⟨by norm_num, by norm_num⟩, h.1, h.2⟩

/-- Claim C3 (confirmed): the qualification probability is monotonically
non-decreasing in each district probability.  The changed coordinate is
singled out by writing the vector as u ++ x :: v; raising x to y (all other
entries probabilities in [0,1]) does not decrease
p_qualify (compute_distribution probs). -/
theorem p_qualify_monotone_in_district_prob (u v : List ℚ) (x y : ℚ)
    (hu : ∀ q ∈ u, 0 ≤ q ∧ q ≤ 1) (hv : ∀ q ∈ v, 0 ≤ q ∧ q ≤ 1)
    (hx : 0 ≤ x) (hy : y ≤ 1) (hxy : x ≤ y) (dpx dpy : List ℚ)
    (hdx : compute_distribution (u ++ x :: v) = some dpx)
    (hdy : compute_distribution (u ++ y :: v) = some dpy) :
    p_qualify dpx ≤ p_qualify dpy := by
  set M := u.length + v.length + 2 with hMdef
  obtain ⟨dx, hdx2, hlenx, hptx, _⟩ := compute_distribution_spec (u ++ x :: v)
  obtain ⟨dy, hdy2, hleny, hpty, _⟩ := compute_distribution_spec (u ++ y :: v)
  rw [hdx] at hdx2
  rw [hdy] at hdy2
  have hxeq : dpx = dx := by injection hdx2
  have hyeq : dpy = dy := by injection hdy2
  subst hxeq
  subst hyeq
  have hlx : dpx.length = M := by
    rw [hlenx]
    simp only [List.length_append, List.length_cons]
    omega
  have hly : dpy.length = M := by
    rw [hleny]
    simp only [List.length_append, List.length_cons]
    omega
  have hqx : p_qualify dpx = Stail M 26 (berPMF (u ++ x :: v)) := by
    unfold p_qualify
    rw [sum_drop_eq_sum_Ico, sum_Ico_getD_ext dpx (le_of_eq hlx)]
    unfold Stail
    exact Finset.sum_congr rfl (fun k _ => hptx k)
  have hqy : p_qualify dpy = Stail M 26 (berPMF (u ++ y :: v)) := by
    unfold p_qualify
    rw [sum_drop_eq_sum_Ico, sum_Ico_getD_ext dpy (le_of_eq hly)]
    unfold Stail
    exact Finset.sum_congr rfl (fun k _ => hpty k)
  rw [hqx, hqy]
  have hfx : berPMF (u ++ x :: v) = v.foldl berStep (berStep (berPMF u) x) := by
    unfold berPMF
    rw [List.foldl_append]
    rfl
  have hfy : berPMF (u ++ y :: v) = v.foldl berStep (berStep (berPMF u) y) := by
    unfold berPMF
    rw [List.foldl_append]
    rfl
  rw [hfx, hfy]
  have hdirnn : ∀ k, 0 ≤ dirac k := by
    intro k
    unfold dirac
    split_ifs <;> norm_num
  have hdirsupp : ∀ k, 0 < k → dirac k = 0 := by
    intro k hk
    unfold dirac
    rw [if_neg (by omega)]
  have hfnn : ∀ k, 0 ≤ berPMF u k := foldl_berStep_nonneg u dirac hu hdirnn
  have hfsupp : ∀ k, u.length < k → berPMF u k = 0 := by
    intro k hk
    exact foldl_berStep_supp u dirac 0 hdirsupp k (by omega)
  have hfM : berPMF u (M - 1) = 0 := hfsupp _ (by omega)
  apply fold_dom M v (berStep (berPMF u) x) (berStep (berPMF u) y)
    (u.length + 1) hv (berStep_supp hfsupp) (berStep_supp hfsupp) (by omega)
  intro t
  cases t with
  | zero =>
    rw [Stail_step_zero M (berPMF u) x (by omega) hfM,
      Stail_step_zero M (berPMF u) y (by omega) hfM]
  | succ s =>
    rw [Stail_step_succ M (berPMF u) x s (by omega) hfM,
      Stail_step_succ M (berPMF u) y s (by omega) hfM]
    have hanti : Stail M (s + 1) (berPMF u) ≤ Stail M s (berPMF u) :=
      Stail_anti hfnn (by omega)
    nlinarith [mul_nonneg (sub_nonneg.mpr hxy) (sub_nonneg.mpr hanti)]

theorem p_qualify_monotone_in_district_prob_witness :
    ((0 : ℚ) ≤ 0) ∧ ((1 : ℚ) ≤ 1) ∧ ((0 : ℚ) ≤ 1) ∧
    compute_distribution ([] ++ (0 : ℚ) :: []) = some [1, 0] ∧
    compute_distribution ([] ++ (1 : ℚ) :: []) = some [0, 1] ∧
    p_qualify [1, 0] ≤ p_qualify [0, 1] := by
  have hd0 : compute_distribution ([] ++ (0 : ℚ) :: []) = some [1, 0] := by
    with_unfolding_all rfl
  have hd1 : compute_distribution ([] ++ (1 : ℚ) :: []) = some [0, 1] := by
    with_unfolding_all rfl
  refine ⟨le_refl 0, le_refl 1, by norm_num, hd0, hd1, ?_⟩
  exact p_qualify_monotone_in_district_prob [] [] 0 1 (by simp) (by simp)
    (le_refl 0) (le_refl 1) (by norm_num) [1, 0] [0, 1] hd0 hd1

/-- Claim C4 (amended).  p_qualify is the tail sum of dp[k] over k >= 26,
the jurisdiction's required district count (DISTRICTS_REQUIRED = 26,
hardcoded in the slice dp[26:]).  Because the cutoff is fixed at 26, the
claim's nine-district example does not go through p_qualify — on a
ten-entry distribution p_qualify returns 0 (see the counterexample).  The
distribution itself does validate the example: the tail sum from k = 8 of
compute_distribution on nine probabilities of 0.9 equals exactly
C(9,8)*0.9^8*0.1 + 0.9^9 = 0.774840978 (so the claim's figure of
approximately 0.7361 is also inaccurate: the expression evaluates to
approximately 0.7748). -/
theorem p_qualify_tail_sum_amended :
    (∀ dp : List ℚ, p_qualify dp =
        Finset.sum (Finset.Ico 26 dp.length) (fun k => dp.getD k 0)) ∧
    ((compute_distribution (List.replicate 9 (9/10))).map
        (fun dp => (dp.drop 8).sum) =
      some (9 * ((9 : ℚ)/10)^8 * (1/10) + (9/10)^9)) := by
  constructor
  · intro dp
    exact sum_drop_eq_sum_Ico dp 26
  · with_unfolding_all rfl

/-- Claim C4, counterexample to the claim as stated: on nine districts of
probability 0.9 the code's qualification probability p_qualify (the tail sum
from the hardcoded index 26) is 0, not C(9,8)*0.9^8*0.1 + 0.9^9 — the
required count is not a parameter of p_qualify. -/
theorem p_qualify_nine_districts_zero :
    (compute_distribution (List.replicate 9 (9/10))).map p_qualify = some 0 ∧
      ¬(9 * ((9 : ℚ)/10)^8 * (1/10) + (9/10)^9 = 0) := by
  refine ⟨by with_unfolding_all rfl, by norm_num⟩

theorem mkDistrictRec_delta_rerun (r : DRec) (v : ℤ) (p : ℚ) :
    (mkDistrictRec true (some r) v p).delta = r.delta := rfl

theorem mkDistrictRec_probDelta_rerun (isRep : Bool) (prevRec : Option DRec)
    (v v2 : ℤ) (p p2 : ℚ) :
    (mkDistrictRec true (some (mkDistrictRec isRep prevRec v p)) v2 p2).probDelta
      = (mkDistrictRec isRep prevRec v p).probDelta := by
  show rnd4 (mkDistrictRec isRep prevRec v p).probDelta
      = (mkDistrictRec isRep prevRec v p).probDelta
  show rnd4 (rnd4 _) = rnd4 _
  exact rnd4_idem _

theorem buildDistricts_rerun (pairs : List (ℤ × ℚ)) :
    ∀ (r0 : Bool) (prevs : List DRec),
    (buildDistricts true (buildDistricts r0 prevs pairs) pairs).map
        (fun r => r.delta)
      = (buildDistricts r0 prevs pairs).map (fun r => r.delta) ∧
    (buildDistricts true (buildDistricts r0 prevs pairs) pairs).map
        (fun r => r.probDelta)
      = (buildDistricts r0 prevs pairs).map (fun r => r.probDelta) := by
  induction pairs with
  | nil => exact fun r0 prevs => ⟨rfl, rfl⟩
  | cons vp rest ih =>
    intro r0 prevs
    obtain ⟨v, p⟩ := vp
    simp only [buildDistricts, List.head?_cons, List.tail_cons, List.map_cons]
    refine ⟨?_, ?_⟩
    · rw [mkDistrictRec_delta_rerun, (ih r0 prevs.tail).1]
    · rw [mkDistrictRec_probDelta_rerun, (ih r0 prevs.tail).2]

theorem runPipeline_rerun_fields (counts : List ℤ) (probs : List ℚ)
    (o1 : RunOut) (h : o1.totalVerified = counts.sum) :
    (runPipeline counts probs (some o1)).districts
        = buildDistricts true o1.districts (counts.zip probs) ∧
    (runPipeline counts probs (some o1)).overallProbDelta
        = o1.overallProbDelta ∧
    (runPipeline counts probs (some o1)).expectedDistrictsDelta
        = o1.expectedDistrictsDelta := by
  have hd : decide (o1.totalVerified = counts.sum) = true := decide_eq_true h
  simp only [runPipeline, hd]
  simp

/-- Claim C9 (confirmed): reprocessing idempotence of the delta-tracking
slice of main.  Running the pipeline a second time on the same parsed input
(same verified counts, same probabilities — those depend only on the input
and history, not on the previous output) with the first run's output as the
previous-output document reproduces identical per-district delta and
probDelta fields and identical overall probability and
expected-district-count deltas: the reprocessing guard fires because the
recorded totalVerified equals the current total, and the guard carries the
delta-dependent fields forward instead of recomputing them as zero. -/
theorem reprocessing_idempotent (counts : List ℤ) (probs : List ℚ)
    (prev0 : Option RunOut) :
    ((runPipeline counts probs (some (runPipeline counts probs prev0))).districts.map
        (fun r => r.delta)
      = (runPipeline counts probs prev0).districts.map (fun r => r.delta)) ∧
    ((runPipeline counts probs (some (runPipeline counts probs prev0))).districts.map
        (fun r => r.probDelta)
      = (runPipeline counts probs prev0).districts.map (fun r => r.probDelta)) ∧
    ((runPipeline counts probs (some (runPipeline counts probs prev0))).overallProbDelta
      = (runPipeline counts probs prev0).overallProbDelta) ∧
    ((runPipeline counts probs (some (runPipeline counts probs prev0))).expectedDistrictsDelta
      = (runPipeline counts probs prev0).expectedDistrictsDelta) := by
  obtain ⟨hdist, hover, hexp⟩ := runPipeline_rerun_fields counts probs
    (runPipeline counts probs prev0) rfl
  rcases prev0 with _ | prev
  · obtain ⟨hdelta, hprob⟩ := buildDistricts_rerun (counts.zip probs) false []
    have hshape : (runPipeline counts probs none).districts
        = buildDistricts false [] (counts.zip probs) := rfl
    refine ⟨?_, ?_, hover, hexp⟩
    · rw [hdist, hshape, hdelta]
    · rw [hdist, hshape, hprob]
  · obtain ⟨hdelta, hprob⟩ := buildDistricts_rerun (counts.zip probs)
      (decide (prev.totalVerified = counts.sum)) prev.districts
    have hshape : (runPipeline counts probs (some prev)).districts
        = buildDistricts (decide (prev.totalVerified = counts.sum))
          prev.districts (counts.zip probs) := rfl
    refine ⟨?_, ?_, hover, hexp⟩
    · rw [hdist, hshape, hdelta]
    · rw [hdist, hshape, hprob]
